import Mathlib

/-!
Shallow embedding of the graphers library (src/src/lib.rs): a small
in-memory labeled, weighted graph built from three components, Edge,
Node and Graph, with per-node adjacency maps.

Modelling conventions.  Rust u32 node identifiers are modelled as Nat
(the code only ever tests identifiers for equality, never does
arithmetic on them), and f32 edge weights are modelled as Rat (the code
only stores and returns weights, it never computes with them).  Rust
HashMap<u32, Edge> is modelled as an association list whose keys are
pairwise distinct; the key uniqueness that HashMap guarantees by type is
carried as a structure invariant on Node.  Rust methods that mutate
their receiver are modelled as functions returning the method result
paired with the updated value.  The eprintln! debug output inside
Node::add_edge writes to stderr only, affects no state and no result,
and is not modelled.
-/

/-- A weighted edge in a graph between two nodes (struct Edge in lib.rs). -/
structure Edge where
  from_node : Nat
  to_node : Nat
  weight : Rat
deriving DecidableEq

/-- Edge::new: creates a new edge with weight between two nodes. -/
def Edge.new (from_node to_node : Nat) (weight : Rat) : Edge :=
  ⟨from_node, to_node, weight⟩

/-- HashMap::get on the adjacency list: the value stored at key k, if any. -/
def adjGet (m : List (Nat × Edge)) (k : Nat) : Option Edge :=
  match m with
  | [] => none
  | (k', e) :: rest => if k' = k then some e else adjGet rest k

/-- HashMap::insert on the adjacency list: stores e at key k, returning the
previous value stored at k (if any) together with the updated list. -/
def adjInsert (m : List (Nat × Edge)) (k : Nat) (e : Edge) :
    Option Edge × List (Nat × Edge) :=
  match m with
  | [] => (none, [(k, e)])
  | (k', e') :: rest =>
    if k' = k then (some e', (k, e) :: rest)
    else
      let r := adjInsert rest k e
      (r.fst, (k', e') :: r.snd)

/-- HashMap::remove_entry on the adjacency list: removes the entry at key k,
returning the stored (key, value) pair (if any) together with the updated
list. -/
def adjRemoveEntry (m : List (Nat × Edge)) (k : Nat) :
    Option (Nat × Edge) × List (Nat × Edge) :=
  match m with
  | [] => (none, [])
  | (k', e) :: rest =>
    if k' = k then (some (k', e), rest)
    else
      let r := adjRemoveEntry rest k
      (r.fst, (k', e) :: r.snd)

/-- Keys of an adjacency list are pairwise distinct, as HashMap guarantees. -/
abbrev adjKeysNodup (m : List (Nat × Edge)) : Prop :=
  (m.map Prod.fst).Nodup

/-- Looking up a key that is not among the keys of the list yields none. -/
theorem adjGet_eq_none_of_not_mem {m : List (Nat × Edge)} {k : Nat}
    (h : k ∉ m.map Prod.fst) : adjGet m k = none := by
  induction m with
  | nil => rfl
  | cons p rest ih =>
    obtain ⟨k', e⟩ := p
    simp only [List.map_cons, List.mem_cons, not_or] at h
    have hne : ¬ k' = k := fun hh => h.1 hh.symm
    simp only [adjGet, if_neg hne, ih h.2]

/-- Every key of the list produced by adjInsert is the inserted key or one of
the original keys. -/
theorem mem_keys_adjInsert {m : List (Nat × Edge)} {k a : Nat} {e : Edge}
    (h : a ∈ (adjInsert m k e).snd.map Prod.fst) :
    a = k ∨ a ∈ m.map Prod.fst := by
  induction m with
  | nil =>
    simp only [adjInsert, List.map_cons, List.map_nil, List.mem_cons,
      List.not_mem_nil, or_false] at h
    exact Or.inl h
  | cons p rest ih =>
    obtain ⟨k', e'⟩ := p
    by_cases hk : k' = k
    · simp only [adjInsert, if_pos hk, List.map_cons, List.mem_cons] at h
      rcases h with h | h
      · exact Or.inl h
      · exact Or.inr (by simp only [List.map_cons, List.mem_cons]; exact Or.inr h)
    · simp only [adjInsert, if_neg hk, List.map_cons, List.mem_cons] at h
      rcases h with h | h
      · exact Or.inr (by simp only [List.map_cons, List.mem_cons]; exact Or.inl h)
      · rcases ih h with h' | h'
        · exact Or.inl h'
        · exact Or.inr (by simp only [List.map_cons, List.mem_cons]; exact Or.inr h')

/-- adjInsert preserves pairwise distinctness of keys. -/
theorem adjInsert_keysNodup {m : List (Nat × Edge)} {k : Nat} {e : Edge}
    (h : adjKeysNodup m) : adjKeysNodup (adjInsert m k e).snd := by
  induction m with
  | nil => simp [adjInsert, adjKeysNodup]
  | cons p rest ih =>
    obtain ⟨k', e'⟩ := p
    simp only [adjKeysNodup, List.map_cons, List.nodup_cons] at h
    by_cases hk : k' = k
    · subst hk
      simpa [adjInsert, adjKeysNodup] using h
    · have ih' := ih h.2
      simp only [adjInsert, if_neg hk, adjKeysNodup, List.map_cons,
        List.nodup_cons]
      refine ⟨fun hmem => ?_, ih'⟩
      rcases mem_keys_adjInsert hmem with h' | h'
      · exact hk h'
      · exact h.1 h'

/-- The list produced by adjRemoveEntry is a sublist of the original. -/
theorem adjRemoveEntry_sublist (m : List (Nat × Edge)) (k : Nat) :
    (adjRemoveEntry m k).snd.Sublist m := by
  induction m with
  | nil => simp [adjRemoveEntry]
  | cons p rest ih =>
    obtain ⟨k', e⟩ := p
    by_cases hk : k' = k
    · simp [adjRemoveEntry, if_pos hk]
    · simp only [adjRemoveEntry, if_neg hk]
      exact List.Sublist.cons₂ (k', e) ih

/-- adjRemoveEntry preserves pairwise distinctness of keys. -/
theorem adjRemoveEntry_keysNodup {m : List (Nat × Edge)} {k : Nat}
    (h : adjKeysNodup m) : adjKeysNodup (adjRemoveEntry m k).snd :=
  List.Nodup.sublist (List.Sublist.map Prod.fst (adjRemoveEntry_sublist m k)) h

/-- The previous value that adjInsert reports is exactly what adjGet finds. -/
theorem adjInsert_fst (m : List (Nat × Edge)) (k : Nat) (e : Edge) :
    (adjInsert m k e).fst = adjGet m k := by
  induction m with
  | nil => rfl
  | cons p rest ih =>
    obtain ⟨k', e'⟩ := p
    by_cases hk : k' = k
    · simp [adjInsert, adjGet, if_pos hk]
    · simp [adjInsert, adjGet, if_neg hk, ih]

/-- After adjInsert, looking up the inserted key finds the new value. -/
theorem adjGet_adjInsert_self (m : List (Nat × Edge)) (k : Nat) (e : Edge) :
    adjGet (adjInsert m k e).snd k = some e := by
  induction m with
  | nil => simp [adjInsert, adjGet]
  | cons p rest ih =>
    obtain ⟨k', e'⟩ := p
    by_cases hk : k' = k
    · simp [adjInsert, adjGet, if_pos hk]
    · simp [adjInsert, adjGet, if_neg hk, ih]

/-- adjInsert leaves the value stored at every other key unchanged. -/
theorem adjGet_adjInsert_ne (m : List (Nat × Edge)) {k k₂ : Nat} (e : Edge)
    (hne : k₂ ≠ k) : adjGet (adjInsert m k e).snd k₂ = adjGet m k₂ := by
  have hne' : ¬ k = k₂ := fun h => hne h.symm
  induction m with
  | nil => simp [adjInsert, adjGet, hne']
  | cons p rest ih =>
    obtain ⟨k', e'⟩ := p
    by_cases hk : k' = k
    · subst hk
      simp [adjInsert, adjGet, hne']
    · simp only [adjInsert, if_neg hk, adjGet]
      by_cases hk2 : k' = k₂
      · simp [if_pos hk2]
      · simp [if_neg hk2, ih]

/-- Inserting at a key that is not yet present grows the list by one. -/
theorem adjInsert_length_of_none {m : List (Nat × Edge)} {k : Nat} (e : Edge)
    (h : adjGet m k = none) :
    (adjInsert m k e).snd.length = m.length + 1 := by
  induction m with
  | nil => rfl
  | cons p rest ih =>
    obtain ⟨k', e'⟩ := p
    by_cases hk : k' = k
    · simp [adjGet, if_pos hk] at h
    · simp only [adjGet, if_neg hk] at h
      simp [adjInsert, if_neg hk, ih h]

/-- Inserting at a key that is already present keeps the length. -/
theorem adjInsert_length_of_some {m : List (Nat × Edge)} {k : Nat}
    {e' : Edge} (e : Edge) (h : adjGet m k = some e') :
    (adjInsert m k e).snd.length = m.length := by
  induction m with
  | nil => simp [adjGet] at h
  | cons p rest ih =>
    obtain ⟨k', e''⟩ := p
    by_cases hk : k' = k
    · simp [adjInsert, if_pos hk]
    · simp only [adjGet, if_neg hk] at h
      simp [adjInsert, if_neg hk, ih h]

/-- The entry that adjRemoveEntry reports is the key paired with what adjGet
finds there. -/
theorem adjRemoveEntry_fst (m : List (Nat × Edge)) (k : Nat) :
    (adjRemoveEntry m k).fst = (adjGet m k).map (fun e => (k, e)) := by
  induction m with
  | nil => rfl
  | cons p rest ih =>
    obtain ⟨k', e⟩ := p
    by_cases hk : k' = k
    · subst hk
      simp [adjRemoveEntry, adjGet]
    · simp [adjRemoveEntry, adjGet, if_neg hk, ih]

/-- Removing a key that is present shrinks the list by one. -/
theorem adjRemoveEntry_length_of_some {m : List (Nat × Edge)} {k : Nat}
    {e : Edge} (h : adjGet m k = some e) :
    (adjRemoveEntry m k).snd.length + 1 = m.length := by
  induction m with
  | nil => simp [adjGet] at h
  | cons p rest ih =>
    obtain ⟨k', e'⟩ := p
    by_cases hk : k' = k
    · simp [adjRemoveEntry, if_pos hk]
    · simp only [adjGet, if_neg hk] at h
      simp [adjRemoveEntry, if_neg hk, ih h]

/-- Removing a key that is absent leaves the list unchanged. -/
theorem adjRemoveEntry_of_none {m : List (Nat × Edge)} {k : Nat}
    (h : adjGet m k = none) : (adjRemoveEntry m k).snd = m := by
  induction m with
  | nil => rfl
  | cons p rest ih =>
    obtain ⟨k', e⟩ := p
    by_cases hk : k' = k
    · simp [adjGet, if_pos hk] at h
    · simp only [adjGet, if_neg hk] at h
      simp [adjRemoveEntry, if_neg hk, ih h]

/-- With pairwise distinct keys, a removed key is gone from the list. -/
theorem adjGet_adjRemoveEntry_self {m : List (Nat × Edge)} {k : Nat}
    (hnd : adjKeysNodup m) : adjGet (adjRemoveEntry m k).snd k = none := by
  induction m with
  | nil => rfl
  | cons p rest ih =>
    obtain ⟨k', e⟩ := p
    simp only [adjKeysNodup, List.map_cons, List.nodup_cons] at hnd
    by_cases hk : k' = k
    · subst hk
      simp only [adjRemoveEntry, if_pos rfl]
      exact adjGet_eq_none_of_not_mem hnd.1
    · simp only [adjRemoveEntry, if_neg hk, adjGet, if_neg hk]
      exact ih hnd.2

/-- A node in a graph (struct Node<T> in lib.rs): an index number, an
adjacency list mapping a neighbor index to the Edge reaching it, and an
optional label.  The field edges_nodup carries the key uniqueness that
HashMap<u32, Edge> guarantees by construction. -/
structure Node (T : Type) where
  idx : Nat
  edges : List (Nat × Edge)
  label : Option T
  edges_nodup : adjKeysNodup edges

/-- Node::new: creates a new node without label. -/
def Node.new {T : Type} (idx : Nat) : Node T :=
  ⟨idx, [], none, List.nodup_nil⟩

/-- Node::with_label: creates a new node with a label. -/
def Node.with_label {T : Type} (idx : Nat) (label : T) : Node T :=
  ⟨idx, [], some label, List.nodup_nil⟩

/-- Node::number_of_edges: the number of adjacency entries. -/
def Node.number_of_edges {T : Type} (n : Node T) : Nat :=
  n.edges.length

/-- Node::get_edge: the edge connecting this node with the neighbor node. -/
def Node.get_edge {T : Type} (n : Node T) (neighbor : Nat) : Option Edge :=
  adjGet n.edges neighbor

/-- Node::add_edge: connects an edge between this node and the neighbor node
by inserting Edge::new(self.idx, neighbor, weight) in the adjacency map;
returns the old edge value if one existed, together with the updated node.
The eprintln! calls in the source print the new edge's fields to stderr and
have no other effect. -/
def Node.add_edge {T : Type} (n : Node T) (neighbor : Nat) (weight : Rat) :
    Option Edge × Node T :=
  ((adjInsert n.edges neighbor (Edge.new n.idx neighbor weight)).fst,
   ⟨n.idx, (adjInsert n.edges neighbor (Edge.new n.idx neighbor weight)).snd,
    n.label, adjInsert_keysNodup n.edges_nodup⟩)

/-- Node::remove_edge: removes the adjacency entry for the neighbor node,
returning the neighbor index and the edge value if the entry existed,
together with the updated node. -/
def Node.remove_edge {T : Type} (n : Node T) (neighbor : Nat) :
    Option (Nat × Edge) × Node T :=
  ((adjRemoveEntry n.edges neighbor).fst,
   ⟨n.idx, (adjRemoveEntry n.edges neighbor).snd,
    n.label, adjRemoveEntry_keysNodup n.edges_nodup⟩)

/-- Modelled from the spec: the error type GraphError is declared in
src/errors.rs, a file of this repository that is not present under src/.
Spec section 7 states the error taxonomy has exactly one kind in the core,
MissingNode, signaled when edge insertion references a source node
identifier not present in the graph. -/
inductive GraphError where
  | MissingNode
deriving DecidableEq

/-- Iterator::position over a list: the index of the first element
satisfying the predicate, if any. -/
def position {α : Type} (p : α → Bool) : List α → Option Nat
  | [] => none
  | x :: xs => if p x then some 0 else (position p xs).map (fun i => i + 1)

/-- An index returned by position is in bounds. -/
theorem position_lt_length {α : Type} {p : α → Bool} :
    ∀ {l : List α} {i : Nat}, position p l = some i → i < l.length
  | x :: xs, i, h => by
    by_cases hx : p x
    · simp only [position, if_pos hx, Option.some.injEq] at h
      simp only [List.length_cons]
      omega
    · simp only [position, if_neg hx, Option.map_eq_some'] at h
      obtain ⟨j, hj, rfl⟩ := h
      have := position_lt_length hj
      simp only [List.length_cons]
      omega

/-- A graph (struct Graph<T> in lib.rs): a capacity, a sequence of nodes,
and a flag recording whether the graph is meant to be undirected. -/
structure Graph (T : Type) where
  capacity : Nat
  nodes : List (Node T)
  undirected : Bool

/-- Graph::new: creates a new graph with the given capacity and directional
type; Vec::with_capacity only preallocates, so the node sequence starts
empty. -/
def Graph.new {T : Type} (capacity : Nat) (undirected : Bool) : Graph T :=
  ⟨capacity, [], undirected⟩

/-- Graph::insert_edge: finds the first node whose idx equals the source
identifier; if none exists, fails with MissingNode; otherwise delegates to
that node's add_edge and stores the updated node back at the same index. -/
def Graph.insert_edge {T : Type} (g : Graph T) (from_ to_ : Nat)
    (weight : Rat) : Except GraphError (Option Edge) × Graph T :=
  match h : position (fun n => n.idx == from_) g.nodes with
  | some i =>
    let n := g.nodes.get ⟨i, position_lt_length h⟩
    (Except.ok (n.add_edge to_ weight).fst,
     ⟨g.capacity, g.nodes.set i (n.add_edge to_ weight).snd, g.undirected⟩)
  | none => (Except.error GraphError.MissingNode, g)

/-- Graph::insert_node: appends the node unless the graph is at capacity;
returns true on success and false when the insertion is refused. -/
def Graph.insert_node {T : Type} (g : Graph T) (node : Node T) :
    Bool × Graph T :=
  if g.nodes.length == g.capacity then (false, g)
  else (true, ⟨g.capacity, g.nodes ++ [node], g.undirected⟩)

/-- Graph::has_node: whether some node of the graph has the given index. -/
def Graph.has_node {T : Type} (g : Graph T) (idx : Nat) : Bool :=
  g.nodes.any (fun n => n.idx == idx)

/-- Graph::get_edge: finds the first node whose idx equals the source
identifier and asks it for the edge to the target identifier; absent when
the source node does not exist. -/
def Graph.get_edge {T : Type} (g : Graph T) (from_ to_ : Nat) : Option Edge :=
  match h : position (fun n => n.idx == from_) g.nodes with
  | some i => (g.nodes.get ⟨i, position_lt_length h⟩).get_edge to_
  | none => none

/-- Graph::has_edge: whether an edge exists between the two identifiers. -/
def Graph.has_edge {T : Type} (g : Graph T) (from_ to_ : Nat) : Bool :=
  (g.get_edge from_ to_).isSome

/-- position finds nothing exactly when no element satisfies the predicate. -/
theorem position_eq_none_iff {α : Type} (p : α → Bool) (l : List α) :
    position p l = none ↔ l.any p = false := by
  induction l with
  | nil => simp [position]
  | cons x xs ih => by_cases hx : p x <;> simp [position, hx, ih]

/-- has_node is false exactly when the position scan finds no node. -/
theorem has_node_eq_false_iff {T : Type} (g : Graph T) (f : Nat) :
    g.has_node f = false ↔ position (fun n => n.idx == f) g.nodes = none := by
  unfold Graph.has_node
  rw [position_eq_none_iff]

/-- Unfolding insert_edge when the position scan finds the source node. -/
theorem insert_edge_of_position_some {T : Type} {g : Graph T} {f : Nat}
    {i : Nat} (h : position (fun n => n.idx == f) g.nodes = some i)
    (t : Nat) (w : Rat) :
    g.insert_edge f t w
      = (Except.ok ((g.nodes.get ⟨i, position_lt_length h⟩).add_edge t w).fst,
         ⟨g.capacity,
          g.nodes.set i
            ((g.nodes.get ⟨i, position_lt_length h⟩).add_edge t w).snd,
          g.undirected⟩) := by
  unfold Graph.insert_edge
  split
  · rename_i j hj
    rw [h] at hj
    obtain rfl : j = i := by injection hj with hh; exact hh.symm
    rfl
  · rename_i hj
    rw [h] at hj
    cases hj

/-- Unfolding insert_edge when the position scan finds no source node. -/
theorem insert_edge_of_position_none {T : Type} {g : Graph T} {f : Nat}
    (h : position (fun n => n.idx == f) g.nodes = none) (t : Nat) (w : Rat) :
    g.insert_edge f t w = (Except.error GraphError.MissingNode, g) := by
  unfold Graph.insert_edge
  split
  · rename_i j hj
    rw [h] at hj
    cases hj
  · rfl

/-- Unfolding get_edge when the position scan finds the source node. -/
theorem get_edge_of_position_some {T : Type} {g : Graph T} {f : Nat}
    {i : Nat} (h : position (fun n => n.idx == f) g.nodes = some i)
    (t : Nat) :
    g.get_edge f t = (g.nodes.get ⟨i, position_lt_length h⟩).get_edge t := by
  unfold Graph.get_edge
  split
  · rename_i j hj
    rw [h] at hj
    obtain rfl : j = i := by injection hj with hh; exact hh.symm
    rfl
  · rename_i hj
    rw [h] at hj
    cases hj

/-- Unfolding get_edge when the position scan finds no source node. -/
theorem get_edge_of_position_none {T : Type} {g : Graph T} {f : Nat}
    (h : position (fun n => n.idx == f) g.nodes = none) (t : Nat) :
    g.get_edge f t = none := by
  unfold Graph.get_edge
  split
  · rename_i j hj
    rw [h] at hj
    cases hj
  · rfl

/-- Sample node used by witnesses: node 1 with a single edge to node 2. -/
def nodeSample : Node Unit :=
  ((Node.new 1 : Node Unit).add_edge 2 3).snd

/-- Sample graph used by witnesses: capacity 5, one node with index 5. -/
def gSample : Graph Unit :=
  ((Graph.new 5 false : Graph Unit).insert_node (Node.new 5)).snd

/-- C1: add_edge on a fresh neighbor returns none and grows the edge count by
one; add_edge on an existing neighbor returns the previous Edge and keeps the
edge count; in both cases the entry for the neighbor afterwards is
Edge::new(self.idx, neighbor, weight). -/
theorem node_add_edge_spec {T : Type} (n : Node T) (k : Nat) (w : Rat) :
    ((n.add_edge k w).snd.get_edge k = some (Edge.new n.idx k w)) ∧
    (n.get_edge k = none →
      (n.add_edge k w).fst = none ∧
      (n.add_edge k w).snd.number_of_edges = n.number_of_edges + 1) ∧
    (∀ e, n.get_edge k = some e →
      (n.add_edge k w).fst = some e ∧
      (n.add_edge k w).snd.number_of_edges = n.number_of_edges) := by
  refine ⟨?_, fun h => ⟨?_, ?_⟩, fun e h => ⟨?_, ?_⟩⟩
  · show adjGet (adjInsert n.edges k (Edge.new n.idx k w)).snd k = _
    exact adjGet_adjInsert_self _ _ _
  · show (adjInsert n.edges k (Edge.new n.idx k w)).fst = none
    rw [adjInsert_fst]
    exact h
  · show (adjInsert n.edges k (Edge.new n.idx k w)).snd.length
      = n.edges.length + 1
    exact adjInsert_length_of_none _ h
  · show (adjInsert n.edges k (Edge.new n.idx k w)).fst = some e
    rw [adjInsert_fst]
    exact h
  · show (adjInsert n.edges k (Edge.new n.idx k w)).snd.length = n.edges.length
    exact adjInsert_length_of_some _ h

/-- C1 witness: concrete runs of both branches of node_add_edge_spec. -/
theorem node_add_edge_spec_witness :
    (((Node.new 10 : Node Unit).add_edge 20 5).fst = none ∧
     ((Node.new 10 : Node Unit).add_edge 20 5).snd.number_of_edges
       = (Node.new 10 : Node Unit).number_of_edges + 1) ∧
    ((((Node.new 10 : Node Unit).add_edge 20 5).snd.add_edge 20 7).fst
       = some (Edge.new 10 20 5) ∧
     (((Node.new 10 : Node Unit).add_edge 20 5).snd.add_edge 20 7).snd.number_of_edges
       = ((Node.new 10 : Node Unit).add_edge 20 5).snd.number_of_edges) :=
  ⟨(node_add_edge_spec (Node.new 10) 20 5).2.1 (by decide),
   (node_add_edge_spec ((Node.new 10 : Node Unit).add_edge 20 5).snd 20 7).2.2
     (Edge.new 10 20 5) (by decide)⟩

/-- C4: remove_edge on a present neighbor returns the (neighbor, edge) pair
and shrinks the edge count by one; removing the same neighbor again returns
none and leaves the count unchanged; removing an absent neighbor returns none
and changes nothing. -/
theorem node_remove_edge_spec {T : Type} (n : Node T) (k : Nat) :
    (∀ e, n.get_edge k = some e →
      (n.remove_edge k).fst = some (k, e) ∧
      (n.remove_edge k).snd.number_of_edges + 1 = n.number_of_edges ∧
      ((n.remove_edge k).snd.remove_edge k).fst = none ∧
      ((n.remove_edge k).snd.remove_edge k).snd.number_of_edges
        = (n.remove_edge k).snd.number_of_edges) ∧
    (n.get_edge k = none →
      (n.remove_edge k).fst = none ∧
      (n.remove_edge k).snd.number_of_edges = n.number_of_edges) := by
  have hgone : adjGet (adjRemoveEntry n.edges k).snd k = none :=
    adjGet_adjRemoveEntry_self n.edges_nodup
  refine ⟨fun e h => ⟨?_, ?_, ?_, ?_⟩, fun h => ⟨?_, ?_⟩⟩
  · show (adjRemoveEntry n.edges k).fst = some (k, e)
    rw [adjRemoveEntry_fst]
    rw [show n.get_edge k = adjGet n.edges k from rfl] at h
    rw [h]
    rfl
  · show (adjRemoveEntry n.edges k).snd.length + 1 = n.edges.length
    exact adjRemoveEntry_length_of_some h
  · show (adjRemoveEntry (adjRemoveEntry n.edges k).snd k).fst = none
    rw [adjRemoveEntry_fst, hgone]
    rfl
  · show (adjRemoveEntry (adjRemoveEntry n.edges k).snd k).snd.length
      = (adjRemoveEntry n.edges k).snd.length
    rw [adjRemoveEntry_of_none hgone]
  · show (adjRemoveEntry n.edges k).fst = none
    rw [adjRemoveEntry_fst]
    rw [show n.get_edge k = adjGet n.edges k from rfl] at h
    rw [h]
    rfl
  · show (adjRemoveEntry n.edges k).snd.length = n.edges.length
    rw [adjRemoveEntry_of_none h]

/-- C4 witness: concrete runs of both branches of node_remove_edge_spec. -/
theorem node_remove_edge_spec_witness :
    ((nodeSample.remove_edge 2).fst = some (2, Edge.new 1 2 3) ∧
     (nodeSample.remove_edge 2).snd.number_of_edges + 1
       = nodeSample.number_of_edges ∧
     ((nodeSample.remove_edge 2).snd.remove_edge 2).fst = none ∧
     ((nodeSample.remove_edge 2).snd.remove_edge 2).snd.number_of_edges
       = (nodeSample.remove_edge 2).snd.number_of_edges) ∧
    ((nodeSample.remove_edge 9).fst = none ∧
     (nodeSample.remove_edge 9).snd.number_of_edges
       = nodeSample.number_of_edges) :=
  ⟨(node_remove_edge_spec nodeSample 2).1 (Edge.new 1 2 3) (by decide),
   (node_remove_edge_spec nodeSample 9).2 (by decide)⟩

/-- C9: Node::new yields the given index, zero edges and no label;
Node::with_label yields the given index, zero edges and the given label. -/
theorem node_constructors_spec {T : Type} (i : Nat) (L : T) :
    (Node.new i : Node T).idx = i ∧
    (Node.new i : Node T).number_of_edges = 0 ∧
    (Node.new i : Node T).label = none ∧
    (Node.with_label i L).idx = i ∧
    (Node.with_label i L).number_of_edges = 0 ∧
    (Node.with_label i L).label = some L :=
  ⟨rfl, rfl, rfl, rfl, rfl, rfl⟩

/-- A call of the public Graph API, used to describe the graphs reachable
from Graph::new by an arbitrary sequence of operations. -/
inductive Op (T : Type) where
  | insertNode : Node T → Op T
  | insertEdge : Nat → Nat → Rat → Op T
  | hasNode : Nat → Op T
  | hasEdge : Nat → Nat → Op T
  | getEdge : Nat → Nat → Op T

/-- The value returned by one Graph API call. -/
inductive Out where
  | asBool : Bool → Out
  | asResult : Except GraphError (Option Edge) → Out
  | asOption : Option Edge → Out

/-- Runs one API call on a graph, returning its result and the new graph. -/
def applyOp {T : Type} (g : Graph T) : Op T → Out × Graph T
  | Op.insertNode n =>
    (Out.asBool (g.insert_node n).fst, (g.insert_node n).snd)
  | Op.insertEdge f t w =>
    (Out.asResult (g.insert_edge f t w).fst, (g.insert_edge f t w).snd)
  | Op.hasNode i => (Out.asBool (g.has_node i), g)
  | Op.hasEdge f t => (Out.asBool (g.has_edge f t), g)
  | Op.getEdge f t => (Out.asOption (g.get_edge f t), g)

/-- Runs a sequence of API calls, returning the results and the final graph. -/
def runOps {T : Type} (g : Graph T) : List (Op T) → List Out × Graph T
  | [] => ([], g)
  | op :: ops =>
    ((applyOp g op).fst :: (runOps (applyOp g op).snd ops).fst,
     (runOps (applyOp g op).snd ops).snd)

/-- No API call changes a graph's capacity. -/
theorem applyOp_capacity {T : Type} (g : Graph T) (op : Op T) :
    (applyOp g op).snd.capacity = g.capacity := by
  cases op with
  | insertNode n =>
    simp only [applyOp, Graph.insert_node]
    split <;> rfl
  | insertEdge f t w =>
    simp only [applyOp]
    unfold Graph.insert_edge
    split <;> rfl
  | hasNode i => rfl
  | hasEdge f t => rfl
  | getEdge f t => rfl

/-- No API call changes a graph's undirected flag. -/
theorem applyOp_undirected {T : Type} (g : Graph T) (op : Op T) :
    (applyOp g op).snd.undirected = g.undirected := by
  cases op with
  | insertNode n =>
    simp only [applyOp, Graph.insert_node]
    split <;> rfl
  | insertEdge f t w =>
    simp only [applyOp]
    unfold Graph.insert_edge
    split <;> rfl
  | hasNode i => rfl
  | hasEdge f t => rfl
  | getEdge f t => rfl

/-- No API call can push the node count beyond the capacity. -/
theorem applyOp_length_le {T : Type} (g : Graph T) (op : Op T)
    (h : g.nodes.length ≤ g.capacity) :
    (applyOp g op).snd.nodes.length ≤ (applyOp g op).snd.capacity := by
  rw [applyOp_capacity]
  cases op with
  | insertNode n =>
    simp only [applyOp, Graph.insert_node]
    split
    · exact h
    · rename_i hne
      simp only [beq_iff_eq] at hne
      simp only [List.length_append, List.length_cons, List.length_nil]
      omega
  | insertEdge f t w =>
    simp only [applyOp]
    unfold Graph.insert_edge
    split
    · simpa [List.length_set] using h
    · exact h
  | hasNode i => exact h
  | hasEdge f t => exact h
  | getEdge f t => exact h

/-- Running any sequence of API calls keeps the node count within the
capacity, and keeps the capacity itself. -/
theorem runOps_length_le {T : Type} :
    ∀ (ops : List (Op T)) (g : Graph T), g.nodes.length ≤ g.capacity →
      (runOps g ops).snd.nodes.length ≤ (runOps g ops).snd.capacity ∧
      (runOps g ops).snd.capacity = g.capacity
  | [], g, h => ⟨h, rfl⟩
  | op :: ops, g, h => by
    have step := applyOp_length_le g op h
    have := runOps_length_le ops (applyOp g op).snd step
    simp only [runOps]
    exact ⟨this.1, this.2.trans (applyOp_capacity g op)⟩

/-- An API call on a graph that differs only in its undirected flag returns
the same result and produces the same graph apart from that flag. -/
theorem applyOp_flag {T : Type} (g : Graph T) (b : Bool) (op : Op T) :
    applyOp (⟨g.capacity, g.nodes, b⟩ : Graph T) op
      = ((applyOp g op).fst,
         ⟨(applyOp g op).snd.capacity, (applyOp g op).snd.nodes, b⟩) := by
  cases op with
  | insertNode n =>
    simp only [applyOp, Graph.insert_node]
    split <;> rfl
  | insertEdge f t w =>
    simp only [applyOp]
    cases hpos : position (fun n => n.idx == f) g.nodes with
    | some i =>
      rw [insert_edge_of_position_some (g := ⟨g.capacity, g.nodes, b⟩) hpos t w,
          insert_edge_of_position_some hpos t w]
    | none =>
      rw [insert_edge_of_position_none (g := ⟨g.capacity, g.nodes, b⟩) hpos t w,
          insert_edge_of_position_none hpos t w]
  | hasNode i => rfl
  | hasEdge f t => rfl
  | getEdge f t => rfl

/-- Running a sequence of API calls on a graph that differs only in its
undirected flag yields the same results and, apart from the flag, the same
final graph. -/
theorem runOps_flag {T : Type} :
    ∀ (ops : List (Op T)) (g : Graph T) (b : Bool),
      runOps (⟨g.capacity, g.nodes, b⟩ : Graph T) ops
        = ((runOps g ops).fst,
           ⟨(runOps g ops).snd.capacity, (runOps g ops).snd.nodes, b⟩)
  | [], g, b => rfl
  | op :: ops, g, b => by
    simp only [runOps, applyOp_flag g b op]
    rw [runOps_flag ops (applyOp g op).snd b]

/-- C8: the undirected flag is stored at construction but never consulted:
any operation sequence gives identical results and identical node state on
Graph::new(c, true) and Graph::new(c, false), and each graph keeps the flag
it was built with. -/
theorem undirected_flag_never_consulted {T : Type} (c : Nat)
    (ops : List (Op T)) :
    (runOps (Graph.new c true : Graph T) ops).fst
      = (runOps (Graph.new c false : Graph T) ops).fst ∧
    (runOps (Graph.new c true : Graph T) ops).snd.nodes
      = (runOps (Graph.new c false : Graph T) ops).snd.nodes ∧
    (runOps (Graph.new c true : Graph T) ops).snd.capacity
      = (runOps (Graph.new c false : Graph T) ops).snd.capacity ∧
    (runOps (Graph.new c true : Graph T) ops).snd.undirected = true ∧
    (runOps (Graph.new c false : Graph T) ops).snd.undirected = false := by
  have hshow : (Graph.new c true : Graph T)
      = (⟨(Graph.new c false : Graph T).capacity,
          (Graph.new c false : Graph T).nodes, true⟩ : Graph T) := rfl
  have h1 := runOps_flag ops (Graph.new c false : Graph T) true
  have h2' : runOps (Graph.new c false : Graph T) ops
      = ((runOps (Graph.new c false : Graph T) ops).fst,
         ⟨(runOps (Graph.new c false : Graph T) ops).snd.capacity,
          (runOps (Graph.new c false : Graph T) ops).snd.nodes, false⟩) :=
    runOps_flag ops (Graph.new c false : Graph T) false
  refine ⟨?_, ?_, ?_, ?_, ?_⟩
  · rw [hshow, h1]
  · rw [hshow, h1]
  · rw [hshow, h1]
  · rw [hshow, h1]
  · conv_lhs => rw [h2']

/-- C2: a graph reachable from Graph::new by any operation sequence never
holds more nodes than its capacity; insert_node appends the node and returns
true strictly below capacity, and returns false leaving the graph unchanged
at capacity. -/
theorem graph_capacity_spec {T : Type} (c : Nat) (u : Bool)
    (ops : List (Op T)) (g : Graph T) (node : Node T) :
    ((runOps (Graph.new c u : Graph T) ops).snd.nodes.length ≤ c) ∧
    (g.nodes.length < g.capacity →
      g.insert_node node
        = (true, ⟨g.capacity, g.nodes ++ [node], g.undirected⟩)) ∧
    (g.nodes.length = g.capacity → g.insert_node node = (false, g)) := by
  refine ⟨?_, fun h => ?_, fun h => ?_⟩
  · have h0 : (Graph.new c u : Graph T).nodes.length
        ≤ (Graph.new c u : Graph T).capacity := by
      simp [Graph.new]
    have hrun := runOps_length_le ops (Graph.new c u) h0
    calc (runOps (Graph.new c u : Graph T) ops).snd.nodes.length
        ≤ (runOps (Graph.new c u : Graph T) ops).snd.capacity := hrun.1
      _ = c := hrun.2
  · have hne : ¬ (g.nodes.length == g.capacity) = true := by
      simp only [beq_iff_eq]
      omega
    unfold Graph.insert_node
    rw [if_neg hne]
  · have heq : (g.nodes.length == g.capacity) = true := by
      simp only [beq_iff_eq]
      exact h
    unfold Graph.insert_node
    rw [if_pos heq]

/-- C2 witness: a concrete run, an insertion below capacity, and a refused
insertion at capacity. -/
theorem graph_capacity_spec_witness :
    ((runOps (Graph.new 1 false : Graph Unit)
        [Op.insertNode (Node.new 7)]).snd.nodes.length ≤ 1) ∧
    ((Graph.new 2 false : Graph Unit).insert_node (Node.new 7)
      = (true, ⟨2, (Graph.new 2 false : Graph Unit).nodes ++ [Node.new 7],
          false⟩)) ∧
    ((Graph.new 0 false : Graph Unit).insert_node (Node.new 7)
      = (false, Graph.new 0 false)) :=
  ⟨(graph_capacity_spec 1 false [Op.insertNode (Node.new 7)]
      (Graph.new 1 false) (Node.new 7)).1,
   (graph_capacity_spec 2 false [] (Graph.new 2 false : Graph Unit)
      (Node.new 7)).2.1 (by decide),
   (graph_capacity_spec 0 false [] (Graph.new 0 false : Graph Unit)
      (Node.new 7)).2.2 (by decide)⟩

/-- C3: insert_edge fails with MissingNode exactly when no node has the
source identifier; when the scan finds the source node, it returns Ok of
that node's add_edge result for any target identifier. -/
theorem graph_insert_edge_missing_node {T : Type} (g : Graph T)
    (f t : Nat) (w : Rat) :
    ((g.insert_edge f t w).fst = Except.error GraphError.MissingNode
      ↔ g.has_node f = false) ∧
    (∀ i (hi : i < g.nodes.length),
      position (fun n => n.idx == f) g.nodes = some i →
      (g.insert_edge f t w).fst
        = Except.ok ((g.nodes.get ⟨i, hi⟩).add_edge t w).fst) := by
  constructor
  · rw [has_node_eq_false_iff]
    cases hpos : position (fun n => n.idx == f) g.nodes with
    | some i =>
      rw [insert_edge_of_position_some hpos t w]
      simp
    | none =>
      rw [insert_edge_of_position_none hpos t w]
      simp
  · intro i hi hpos
    rw [insert_edge_of_position_some hpos t w]

/-- C3 witness: a failing insert on a missing source node and a succeeding
insert on a present one. -/
theorem graph_insert_edge_missing_node_witness :
    (((Graph.new 1 false : Graph Unit).insert_edge 5 9 3).fst
        = Except.error GraphError.MissingNode
      ↔ (Graph.new 1 false : Graph Unit).has_node 5 = false) ∧
    ((gSample.insert_edge 5 9 3).fst
      = Except.ok ((gSample.nodes.get ⟨0, by decide⟩).add_edge 9 3).fst) :=
  ⟨(graph_insert_edge_missing_node (Graph.new 1 false : Graph Unit) 5 9 3).1,
   (graph_insert_edge_missing_node gSample 5 9 3).2 0 (by decide) (by decide)⟩

/-- C5: get_edge returns none (not an error) when the source node is absent,
otherwise delegates to the found node's get_edge; has_edge is true exactly
when get_edge finds an edge. -/
theorem graph_get_edge_spec {T : Type} (g : Graph T) (f t : Nat) :
    (g.has_node f = false → g.get_edge f t = none) ∧
    (∀ i (hi : i < g.nodes.length),
      position (fun n => n.idx == f) g.nodes = some i →
      g.get_edge f t = (g.nodes.get ⟨i, hi⟩).get_edge t) ∧
    (g.has_edge f t = true ↔ (g.get_edge f t).isSome = true) := by
  refine ⟨fun h => ?_, fun i hi hpos => ?_, Iff.rfl⟩
  · rw [has_node_eq_false_iff] at h
    exact get_edge_of_position_none h t
  · exact get_edge_of_position_some hpos t

/-- C5 witness: a lookup against a missing source node and one against a
present source node. -/
theorem graph_get_edge_spec_witness :
    ((Graph.new 1 false : Graph Unit).get_edge 5 9 = none) ∧
    (gSample.get_edge 5 9 = (gSample.nodes.get ⟨0, by decide⟩).get_edge 9) :=
  ⟨(graph_get_edge_spec (Graph.new 1 false : Graph Unit) 5 9).1 (by decide),
   (graph_get_edge_spec gSample 5 9).2.1 0 (by decide) (by decide)⟩

/-- C6: the index that insert_edge and get_edge use to subscript the node
sequence comes from a successful position scan and is therefore always in
bounds, so the subscript cannot panic; every modelled operation is a total
function. -/
theorem graph_scan_index_in_bounds {T : Type} (g : Graph T) (f i : Nat)
    (h : position (fun n => n.idx == f) g.nodes = some i) :
    i < g.nodes.length :=
  position_lt_length h

/-- C6 witness: the scan of the sample graph finds index 0, in bounds. -/
theorem graph_scan_index_in_bounds_witness : 0 < gSample.nodes.length :=
  graph_scan_index_in_bounds gSample 5 0 (by decide)

/-- C7: a successful insert_edge changes only the adjacency map of the found
source node; every other node, the source node's index and label, the node
count, the capacity and the undirected flag are untouched, and no reciprocal
edge appears anywhere; a failing insert_edge leaves the graph unchanged. -/
theorem graph_insert_edge_frame {T : Type} (g : Graph T) (f t : Nat)
    (w : Rat) :
    ((g.insert_edge f t w).snd.capacity = g.capacity) ∧
    ((g.insert_edge f t w).snd.undirected = g.undirected) ∧
    ((g.insert_edge f t w).snd.nodes.length = g.nodes.length) ∧
    ((g.insert_edge f t w).fst = Except.error GraphError.MissingNode →
      (g.insert_edge f t w).snd = g) ∧
    (∀ i (hi : i < g.nodes.length),
      position (fun n => n.idx == f) g.nodes = some i →
      (∀ j, j ≠ i → (g.insert_edge f t w).snd.nodes[j]? = g.nodes[j]?) ∧
      ((g.insert_edge f t w).snd.nodes[i]?
        = some ((g.nodes.get ⟨i, hi⟩).add_edge t w).snd) ∧
      (((g.nodes.get ⟨i, hi⟩).add_edge t w).snd.idx
        = (g.nodes.get ⟨i, hi⟩).idx) ∧
      (((g.nodes.get ⟨i, hi⟩).add_edge t w).snd.label
        = (g.nodes.get ⟨i, hi⟩).label) ∧
      (∀ k, k ≠ t →
        ((g.nodes.get ⟨i, hi⟩).add_edge t w).snd.get_edge k
          = (g.nodes.get ⟨i, hi⟩).get_edge k)) := by
  cases hpos : position (fun n => n.idx == f) g.nodes with
  | some i0 =>
    rw [insert_edge_of_position_some hpos t w]
    refine ⟨rfl, rfl, by simp [List.length_set], fun hcontra => ?_, ?_⟩
    · exact absurd hcontra (by simp)
    · intro i hi hpos'
      obtain rfl : i0 = i := by injection hpos'
      refine ⟨fun j hj => List.getElem?_set_ne (fun hh => hj hh.symm),
        List.getElem?_set_self (position_lt_length hpos), rfl, rfl,
        fun k hk => adjGet_adjInsert_ne _ _ hk⟩
  | none =>
    rw [insert_edge_of_position_none hpos t w]
    refine ⟨rfl, rfl, rfl, fun _ => rfl, ?_⟩
    intro i hi hpos'
    cases hpos'

/-- C7 witness: a failing insert leaves the graph unchanged; a succeeding
insert leaves the other slots, the node's index and label, and the other
adjacency keys unchanged. -/
theorem graph_insert_edge_frame_witness :
    (((Graph.new 1 false : Graph Unit).insert_edge 5 9 3).snd
        = Graph.new 1 false) ∧
    ((gSample.insert_edge 5 9 3).snd.nodes[1]? = gSample.nodes[1]?) ∧
    ((gSample.insert_edge 5 9 3).snd.nodes[0]?
      = some ((gSample.nodes.get ⟨0, by decide⟩).add_edge 9 3).snd) ∧
    (((gSample.nodes.get ⟨0, by decide⟩).add_edge 9 3).snd.get_edge 4
      = (gSample.nodes.get ⟨0, by decide⟩).get_edge 4) :=
  ⟨(graph_insert_edge_frame (Graph.new 1 false : Graph Unit) 5 9 3).2.2.2.1
      rfl,
   ((graph_insert_edge_frame gSample 5 9 3).2.2.2.2 0 (by decide)
      (by decide)).1 1 (by decide),
   ((graph_insert_edge_frame gSample 5 9 3).2.2.2.2 0 (by decide)
      (by decide)).2.1,
   ((graph_insert_edge_frame gSample 5 9 3).2.2.2.2 0 (by decide)
      (by decide)).2.2.2.2 4 (by decide)⟩

/-- Well-formedness of a node's stored edges: every adjacency entry holds an
edge that starts at the owning node and whose key equals its target. -/
abbrev NodeWf {T : Type} (n : Node T) : Prop :=
  ∀ p ∈ n.edges, p.2.from_node = n.idx ∧ p.2.to_node = p.1

/-- Every entry of the list produced by adjInsert is the inserted entry or
one of the original entries. -/
theorem mem_adjInsert {m : List (Nat × Edge)} {k : Nat} {e : Edge}
    {p : Nat × Edge} (h : p ∈ (adjInsert m k e).snd) :
    p = (k, e) ∨ p ∈ m := by
  induction m with
  | nil =>
    simp only [adjInsert, List.mem_cons, List.not_mem_nil, or_false] at h
    exact Or.inl h
  | cons q rest ih =>
    obtain ⟨k', e'⟩ := q
    by_cases hk : k' = k
    · simp only [adjInsert, if_pos hk, List.mem_cons] at h
      rcases h with h | h
      · exact Or.inl h
      · exact Or.inr (List.mem_cons_of_mem _ h)
    · simp only [adjInsert, if_neg hk, List.mem_cons] at h
      rcases h with h | h
      · exact Or.inr (h ▸ List.mem_cons_self _ _)
      · rcases ih h with h' | h'
        · exact Or.inl h'
        · exact Or.inr (List.mem_cons_of_mem _ h')

/-- add_edge keeps a node well-formed: the new entry records the owning node
and its key, and the other entries were already well-formed. -/
theorem NodeWf.add_edge {T : Type} {n : Node T} (hw : NodeWf n)
    (k : Nat) (w : Rat) : NodeWf (n.add_edge k w).snd := by
  intro p hp
  rcases mem_adjInsert hp with h | h
  · subst h
    exact ⟨rfl, rfl⟩
  · exact hw p h

/-- remove_edge keeps a node well-formed. -/
theorem NodeWf.remove_edge {T : Type} {n : Node T} (hw : NodeWf n)
    (k : Nat) : NodeWf (n.remove_edge k).snd := fun p hp =>
  hw p ((adjRemoveEntry_sublist n.edges k).subset hp)

/-- All nodes of a graph are well-formed. -/
abbrev GraphNodesWf {T : Type} (g : Graph T) : Prop :=
  ∀ n ∈ g.nodes, NodeWf n

/-- An API call only inserts well-formed nodes when the node it carries is
well-formed. -/
abbrev OpWf {T : Type} : Op T → Prop
  | Op.insertNode n => NodeWf n
  | _ => True

/-- One API call keeps all nodes of the graph well-formed. -/
theorem applyOp_wf {T : Type} {g : Graph T} (hg : GraphNodesWf g)
    {op : Op T} (hop : OpWf op) : GraphNodesWf (applyOp g op).snd := by
  cases op with
  | insertNode n =>
    simp only [applyOp, Graph.insert_node]
    split
    · exact hg
    · intro x hx
      rcases List.mem_append.1 hx with h | h
      · exact hg x h
      · rw [List.mem_singleton] at h
        subst h
        exact hop
  | insertEdge f t w =>
    cases hpos : position (fun n => n.idx == f) g.nodes with
    | some i =>
      simp only [applyOp]
      rw [insert_edge_of_position_some hpos t w]
      intro x hx
      rcases List.mem_or_eq_of_mem_set hx with h | h
      · exact hg x h
      · subst h
        exact NodeWf.add_edge (hg _ (List.get_mem _ _ _)) t w
    | none =>
      simp only [applyOp]
      rw [insert_edge_of_position_none hpos t w]
      exact hg
  | hasNode i => exact hg
  | hasEdge f t => exact hg
  | getEdge f t => exact hg

/-- A sequence of API calls that inserts only well-formed nodes keeps all
nodes of the graph well-formed. -/
theorem runOps_wf {T : Type} :
    ∀ (ops : List (Op T)) (g : Graph T), GraphNodesWf g →
      (∀ op ∈ ops, OpWf op) → GraphNodesWf (runOps g ops).snd
  | [], _, hg, _ => hg
  | op :: ops, g, hg, hops => by
    simp only [runOps]
    exact runOps_wf ops (applyOp g op).snd
      (applyOp_wf hg (hops op (List.mem_cons_self op ops)))
      (fun o ho => hops o (List.mem_cons_of_mem op ho))

/-- C10: nodes built by the constructors are well-formed, add_edge and
remove_edge preserve well-formedness, and every node of a graph reachable
from Graph::new through API calls that insert only API-built (well-formed)
nodes stores exclusively edges that originate at that node and whose
adjacency key equals their target. -/
theorem node_graph_wf_invariant (T : Type) :
    (∀ i : Nat, NodeWf (Node.new i : Node T)) ∧
    (∀ (i : Nat) (L : T), NodeWf (Node.with_label i L)) ∧
    (∀ (n : Node T) (k : Nat) (w : Rat), NodeWf n →
      NodeWf (n.add_edge k w).snd) ∧
    (∀ (n : Node T) (k : Nat), NodeWf n → NodeWf (n.remove_edge k).snd) ∧
    (∀ (c : Nat) (u : Bool) (ops : List (Op T)),
      (∀ op ∈ ops, OpWf op) →
      ∀ n ∈ (runOps (Graph.new c u : Graph T) ops).snd.nodes, NodeWf n) := by
  refine ⟨?_, ?_, ?_, ?_, ?_⟩
  · intro i p hp
    exact absurd hp (List.not_mem_nil p)
  · intro i L p hp
    exact absurd hp (List.not_mem_nil p)
  · intro n k w hw
    exact hw.add_edge k w
  · intro n k hw
    exact hw.remove_edge k
  · intro c u ops hops
    exact runOps_wf ops (Graph.new c u)
      (fun n hn => absurd hn (List.not_mem_nil n)) hops

/-- C10 witness: well-formedness holds on a concrete node after add_edge and
remove_edge, and on every node of a concretely built graph. -/
theorem node_graph_wf_invariant_witness :
    NodeWf (((Node.new 1 : Node Unit).add_edge 2 3).snd) ∧
    NodeWf ((nodeSample.remove_edge 2).snd) ∧
    (∀ n ∈ (runOps (Graph.new 1 false : Graph Unit)
        [Op.insertNode (Node.new 5)]).snd.nodes, NodeWf n) :=
  ⟨(node_graph_wf_invariant Unit).2.2.1 (Node.new 1) 2 3
      (fun p hp => absurd hp (List.not_mem_nil p)),
   (node_graph_wf_invariant Unit).2.2.2.1 nodeSample 2 (by decide),
   (node_graph_wf_invariant Unit).2.2.2.2 1 false
      [Op.insertNode (Node.new 5)]
      (by
        intro op hop
        rw [List.mem_singleton] at hop
        subst hop
        intro p hp
        exact absurd hp (List.not_mem_nil p))⟩
